import Mathlib

/-!
Verification of the change-classification and message-synthesis engine of
`skills/git-commit-auto/scripts/suggest_commit_message.py`.

Strings are embedded as `List Char` (Python `str` indexing/length counts code
points, as does `List Char`).  The subprocess calls into `git` (the raw diff
output, the untracked listing, the shortstat line, and whether `rev-parse`
succeeded) are passed to the embedded functions as explicit parameters; every
other piece of the source is translated directly.
-/

set_option maxHeartbeats 1000000

namespace SuggestCommit

/-- Python `str` as a list of code points. -/
abbrev Str := List Char

/-- Python `needle in hay` (substring containment). -/
def strContains (hay needle : Str) : Bool :=
  hay.tails.any (fun t => needle.isPrefixOf t)

/-- Python `s.lower()` (ASCII case folding suffices for the repository inputs). -/
def lowerStr (s : Str) : Str := s.map Char.toLower

/-- Python `str.strip` whitespace test. -/
def isWS (c : Char) : Bool :=
  c = ' ' || c = '\t' || c = '\n' || c = '\r' || c = '\x0b' || c = '\x0c'

/-- Python `s.strip()`. -/
def trimStr (s : Str) : Str :=
  ((s.dropWhile isWS).reverse.dropWhile isWS).reverse

/-- Python `p.split("/")[-1]` (the final path component). -/
def baseName (p : Str) : Str :=
  ((p.reverse.takeWhile (fun c => c != '/')).reverse)

/-- Python `p.split("/", 1)[0] if "/" in p else p` from `_dominant_area`. -/
def topSegment (p : Str) : Str :=
  if strContains p ("/".toList) then p.takeWhile (fun c => c != '/') else p

/-- Decimal digits of a natural number (Python f-string `{n}`), fuel-structured
so that the kernel can evaluate it. -/
def natToStrAux : Nat → Nat → Str → Str
  | 0, _, acc => acc
  | fuel + 1, n, acc =>
    if n < 10 then Nat.digitChar n :: acc
    else natToStrAux fuel (n / 10) (Nat.digitChar (n % 10) :: acc)

/-- Decimal rendering of a natural number. -/
def natToStr (n : Nat) : Str := natToStrAux (n + 1) n []

/-- Python `s.replace(pat, "")` (delete every occurrence, left to right),
fuel-structured; call sites only use non-empty patterns. -/
def removeAllAux : Nat → Str → Str → Str
  | 0, s, _ => s
  | _ + 1, [], _ => []
  | fuel + 1, c :: cs, pat =>
    if !pat.isEmpty && pat.isPrefixOf (c :: cs) then
      removeAllAux fuel ((c :: cs).drop pat.length) pat
    else
      c :: removeAllAux fuel cs pat

/-- Python `s.replace(pat, "")`. -/
def removeAll (s pat : Str) : Str := removeAllAux s.length s pat

/-- Python `bytes.split(b"\x00")` over the decoded character stream. -/
def splitNul : Str → List Str
  | [] => [[]]
  | c :: rest =>
    if c = '\x00' then [] :: splitNul rest
    else
      match splitNul rest with
      | [] => [[c]]
      | r :: rs => (c :: r) :: rs

/-- Model of `_parse_z_pairs`: split the raw diff output on NUL and drop a trailing
empty field; empty input gives no fields. -/
def _parse_z_pairs (data : Str) : List Str :=
  if data.isEmpty then []
  else
    let parts := splitNul data
    if parts.getLast? = some [] then parts.dropLast else parts

/-- The `ChangedFile` dataclass: a status string and a repo-relative path. -/
structure ChangedFile where
  status : Str
  path : Str
deriving DecidableEq, Repr

/-- The record loop of `_list_changed_files` over the NUL-separated fields:
an empty status field is skipped; a status starting with `R`/`C` consumes two
following path fields (old, new) and keeps the new one; any other status
consumes one path field; a truncated trailing record stops the loop. -/
def parseRecords : List Str → List ChangedFile
  | [] => []
  | [] :: rest => parseRecords rest
  | (c :: cs) :: rest =>
    if c == 'R' || c == 'C' then
      match rest with
      | _old :: newPath :: rest2 => ⟨[c], newPath⟩ :: parseRecords rest2
      | _ => []
    else
      match rest with
      | path :: rest2 => ⟨[c], path⟩ :: parseRecords rest2
      | _ => []

/-- Model of `_list_changed_files` with the raw `git diff --name-status -z` output as a
parameter in place of the subprocess call. -/
def _list_changed_files (raw : Str) : List ChangedFile :=
  parseRecords (_parse_z_pairs raw)

/-- Model of `_list_untracked_files` with the raw `git ls-files` output as a parameter:
every untracked path gets status `A`. -/
def _list_untracked_files (raw : Str) : List ChangedFile :=
  (_parse_z_pairs raw).map (fun p => ⟨"A".toList, p⟩)

/-- Python dict `counts[top] = counts.get(top, 0) + 1`: an insertion-ordered
association list, bumping in place or appending a new key at the end. -/
def bump : List (Str × Nat) → Str → List (Str × Nat)
  | [], k => [(k, 1)]
  | (k', n) :: rest, k =>
    if k' = k then (k', n + 1) :: rest else (k', n) :: bump rest k

/-- Python dict `score[zh] = score.get(zh, 0) + w`. -/
def bumpBy : List (Str × Nat) → Str → Nat → List (Str × Nat)
  | [], k, w => [(k, w)]
  | (k', n) :: rest, k, w =>
    if k' = k then (k', n + w) :: rest else (k', n) :: bumpBy rest k w

/-- Python `max(items, key=lambda kv: kv[1])` on a non-empty list: keep the
current maximum, replacing it only on a strictly greater value, so the first
maximum wins. -/
def firstMax (c : Str × Nat) (rest : List (Str × Nat)) : Str × Nat :=
  rest.foldl (fun acc y => if y.2 > acc.2 then y else acc) c

/-- Python `mapping.get(k, d)`. -/
def lookupD (m : List (Str × Str)) (k : Str) (d : Str) : Str :=
  ((m.find? (fun kv => kv.1 = k)).map (fun kv => kv.2)).getD d

/-- The area display-name table of `_dominant_area`. -/
def areaMapping : List (Str × Str) :=
  [("mobile-app".toList, "移动端".toList),
   ("backend".toList, "后端".toList),
   ("docs".toList, "文档".toList)]

/-- Model of `_dominant_area`: tally top-level path segments in an insertion-ordered
dict, take the first maximum, and map it to a display name with `"项目"` as
the fallback (also returned on empty input). -/
def _dominant_area (paths : List Str) : Str :=
  match paths.foldl (fun cs p => bump cs (topSegment p)) [] with
  | [] => "项目".toList
  | c :: rest => lookupD areaMapping (firstMax c rest).1 ("项目".toList)

/-- Model of `_is_docs_only`: non-empty and every path under `docs/` or ending in
`.md` (case-insensitively). -/
def _is_docs_only (paths : List Str) : Bool :=
  if paths.isEmpty then false
  else paths.all (fun p =>
    ("docs/".toList).isPrefixOf p || (".md".toList).isSuffixOf (lowerStr p))

/-- The end-anchored alternatives of the regex
`\.(spec|test)\.(ts|tsx|js|jsx)$` in `_is_test_only`. -/
def specTestSuffixes : List Str :=
  [".spec.ts".toList, ".spec.tsx".toList, ".spec.js".toList, ".spec.jsx".toList,
   ".test.ts".toList, ".test.tsx".toList, ".test.js".toList, ".test.jsx".toList]

/-- A regex of the shape `(^|/)name(/|$)` searched anywhere in `p`. -/
def segPattern (name : Str) (p : Str) : Bool :=
  p = name ||
  (name ++ "/".toList).isPrefixOf p ||
  ("/".toList ++ name).isSuffixOf p ||
  strContains p ("/".toList ++ name ++ "/".toList)

/-- One path matching any of the four test-file regexes of `_is_test_only`. -/
def matchesTestPattern (p : Str) : Bool :=
  ("_test.go".toList).isSuffixOf p ||
  specTestSuffixes.any (fun s => s.isSuffixOf p) ||
  segPattern ("__tests__".toList) p ||
  segPattern ("test".toList) p || segPattern ("tests".toList) p

/-- Model of `_is_test_only`: non-empty and every path matches a test convention. -/
def _is_test_only (paths : List Str) : Bool :=
  if paths.isEmpty then false else paths.all matchesTestPattern

/-- The allow-list of `_is_chore_only`. -/
def choreAllow : List Str :=
  ["package.json".toList, "package-lock.json".toList, "yarn.lock".toList,
   "pnpm-lock.yaml".toList, "go.mod".toList, "go.sum".toList,
   "tsconfig.json".toList, "app.json".toList, "app.config.js".toList,
   "app.config.ts".toList, ".gitignore".toList, ".gitattributes".toList]

/-- Model of `_is_chore_only`: non-empty and every path is a known configuration
artifact (allow-listed basename, `.github/` or `.vscode/` trees, or an
eslint/prettier yaml). -/
def _is_chore_only (paths : List Str) : Bool :=
  if paths.isEmpty then false
  else paths.all (fun p =>
    let base := baseName p
    choreAllow.contains base ||
    (".github/".toList).isPrefixOf p ||
    (".vscode/".toList).isPrefixOf p ||
    (((".yml".toList).isSuffixOf base || (".yaml".toList).isSuffixOf base) &&
      (strContains base ("eslint".toList) || strContains base ("prettier".toList))))

/-- The fixed defect-language keyword set of `_infer_type`. -/
def defectKeywords : List Str :=
  ["修复".toList, "bug".toList, "崩溃".toList, "异常".toList, "错误".toList]

/-- Python `if user_hint and any(k in user_hint for k in [...])`: the hint is
present, non-empty, and contains a defect keyword. -/
def hintHasDefect (user_hint : Option Str) : Bool :=
  match user_hint with
  | none => false
  | some h => !h.isEmpty && defectKeywords.any (fun k => strContains h k)

/-- Model of `_infer_type`: hint keywords first, then docs-only, test-only,
chore-only, defaulting to `feat`. -/
def _infer_type (paths : List Str) (user_hint : Option Str) : Str :=
  if hintHasDefect user_hint then "fix".toList
  else if _is_docs_only paths then "docs".toList
  else if _is_test_only paths then "test".toList
  else if _is_chore_only paths then "chore".toList
  else "feat".toList

/-- The priority loop of `_infer_object`: the first added file whose lowered
path contains `about` (checked first) or `privacy` fixes the label. -/
def priorityPhase : List ChangedFile → Option Str
  | [] => none
  | c :: rest =>
    let p := lowerStr c.path
    if c.status = "A".toList && strContains p ("about".toList) then
      some ("关于我们".toList)
    else if c.status = "A".toList && strContains p ("privacy".toList) then
      some ("隐私政策".toList)
    else priorityPhase rest

/-- The ordered keyword/label table of `_infer_object`. -/
def objectKeywords : List (Str × Str) :=
  [("about".toList, "关于我们".toList),
   ("privacy".toList, "隐私政策".toList),
   ("register".toList, "注册".toList),
   ("signup".toList, "注册".toList),
   ("login".toList, "登录".toList),
   ("auth".toList, "认证".toList),
   ("profile".toList, "个人中心".toList),
   ("account".toList, "账号".toList),
   ("search".toList, "搜索".toList),
   ("player".toList, "播放器".toList),
   ("history".toList, "历史".toList),
   ("download".toList, "下载".toList),
   ("cache".toList, "缓存".toList),
   ("toast".toList, "Toast".toList),
   ("supabase".toList, "Supabase".toList),
   ("api".toList, "接口".toList),
   ("route".toList, "路由".toList),
   ("layout".toList, "布局".toList)]

/-- The inner scoring loop of `_infer_object` for one keyword/label pair over
the `(lowered path, status)` items: weight 3 for an added file, else 1. -/
def scoreOne (items : List (Str × Str)) (needle zh : Str)
    (score : List (Str × Nat)) : List (Str × Nat) :=
  items.foldl (fun sc ps =>
    if strContains ps.1 needle then
      bumpBy sc zh (if ps.2 = "A".toList then 3 else 1)
    else sc) score

/-- Model of `_infer_object`: priority phase, then keyword scoring with the first
maximum winning; `none` when nothing scored. -/
def _infer_object (changed : List ChangedFile) : Option Str :=
  match priorityPhase changed with
  | some z => some z
  | none =>
    let lower_items := changed.map (fun c => (lowerStr c.path, c.status))
    let score := objectKeywords.foldl
      (fun sc kw => scoreOne lower_items kw.1 kw.2 sc) []
    match score with
    | [] => none
    | kv :: rest => some (firstMax kv rest).1

/-- Model of `_infer_action`: any added file wins, then any deleted file, else update. -/
def _infer_action (statuses : List Str) : Str :=
  if statuses.any (fun s => s = "A".toList) then "新增".toList
  else if statuses.any (fun s => s = "D".toList) then "移除".toList
  else "更新".toList

/-- Model of `_compact_subject`: prefix and trim; if over the limit, delete the two
filler words and re-check; if still over, hard-truncate to the limit. -/
def _compact_subject (pre summary : Str) (limit : Nat := 50) : Str :=
  let subject := trimStr (pre ++ ": ".toList ++ summary)
  if subject.length ≤ limit then subject
  else
    let summary2 := removeAll (removeAll summary ("功能".toList)) ("页面".toList)
    let subject2 := trimStr (pre ++ ": ".toList ++ summary2)
    if subject2.length ≤ limit then subject2
    else subject.take limit

/-- Model of `build_message` with the git reads passed in: `tracked` is the parsed
diff listing, `untracked` the untracked listing (appended only in worktree
mode), `stat` the shortstat line.  Raises (returns `.error`) exactly when the
combined change set is empty. -/
def build_message (tracked untracked : List ChangedFile) (cached : Bool)
    (user_hint : Option Str) (stat : Str) : Except Str (Str × Str) :=
  let changed := if cached then tracked else tracked ++ untracked
  let paths := changed.map (fun c => c.path)
  let statuses := changed.map (fun c => c.status)
  if paths.isEmpty then .error ("no changes to summarize".toList)
  else
    let commit_type := _infer_type paths user_hint
    let area := _dominant_area paths
    let obj := _infer_object changed
    let action := _infer_action statuses
    let summary :=
      if !(user_hint.getD []).isEmpty then trimStr (user_hint.getD [])
      else
        match obj with
        | some o =>
          if commit_type = "docs".toList then action ++ o ++ "文档".toList
          else if (o = "关于我们".toList || o = "隐私政策".toList) &&
              paths.any (fun p => strContains (lowerStr p) ("about".toList)) then
            action ++ o ++ "页面".toList
          else if strContains o ("页面".toList) || ("页".toList).isSuffixOf o then
            action ++ o
          else action ++ o ++ "功能".toList
        | none => action ++ area ++ "变更".toList
    let subject := _compact_subject commit_type summary
    let lines :=
      (if stat.isEmpty then [] else ["- 统计：".toList ++ stat]) ++
      (changed.take 12).map (fun c => "- ".toList ++ c.status ++ " ".toList ++ c.path) ++
      (if changed.length > 12 then
        ["- ... 以及另外 ".toList ++ natToStr (changed.length - 12) ++ " 个文件".toList]
      else [])
    let body := trimStr (List.intercalate ("\n".toList) lines)
    .ok (subject, body)

/-- Model of the exit-code behaviour of `main` with the environment passed in: `repoOk` is
whether `git rev-parse --show-toplevel` succeeded (on failure
`_get_repo_root` calls `sys.exit(2)`); printing and `--json` formatting are
output-only and not modelled. -/
def mainRun (cached worktree : Bool) (hint : Option Str) (repoOk : Bool)
    (tracked untracked : List ChangedFile) (stat : Str) : Nat :=
  if cached && worktree then 2
  else if !repoOk then 2
  else
    match build_message tracked untracked (!worktree) hint stat with
    | .error _ => 3
    | .ok _ => 0

/-- A complete NUL-record as consumed by the `_list_changed_files` loop: a
lone empty status field (skipped), an ordinary status with one path, or a
rename/copy status with two paths. -/
def isCompleteRecord : List Str → Bool
  | [s] => s.isEmpty
  | [s, _] =>
    match s with
    | [] => false
    | c :: _ => !(c == 'R' || c == 'C')
  | [s, _, _] =>
    match s with
    | [] => false
    | c :: _ => c == 'R' || c == 'C'
  | _ => false

/-- A truncated trailing record: a non-empty status with no path field, or a
rename/copy status with only one of its two path fields. -/
def isIncompleteTail : List Str → Bool
  | [s] => !s.isEmpty
  | [s, _] =>
    match s with
    | [] => false
    | c :: _ => c == 'R' || c == 'C'
  | _ => false

/-- The distinct elements of a list in order of first occurrence. -/
def dedupFirst : List Str → List Str
  | [] => []
  | s :: rest => s :: (dedupFirst rest).filter (fun t => t != s)

/-- Following the spec description of the tally: each distinct segment, in first
occurrence order, paired with its occurrence count. -/
def specTally (segs : List Str) : List (Str × Nat) :=
  (dedupFirst segs).map (fun s => (s, segs.count s))

/-- Modelled from the spec wording for the dominant-area classifier: map each
path to the substring before its first separator (or the whole path), tally
occurrence counts per distinct segment, pick the plurality segment with the
first maximum winning, and map it through the display-name table with the
generic fallback. -/
def specInferArea (paths : List Str) : Str :=
  let segs := paths.map (fun p => p.takeWhile (fun c => c != '/'))
  match specTally segs with
  | [] => "项目".toList
  | c :: rest => lookupD areaMapping (firstMax c rest).1 ("项目".toList)

/-- A concrete change set of 15 modified files under `backend/`. -/
def backendSample : List ChangedFile :=
  (List.range 15).map (fun i => ⟨"M".toList, "backend/f".toList ++ natToStr i⟩)

/-- Error projection of a `build_message` result. -/
def resErr (r : Except Str (Str × Str)) : Option Str :=
  match r with
  | .error e => some e
  | .ok _ => none

/-- Success projection of a `build_message` result. -/
def resOk (r : Except Str (Str × Str)) : Option (Str × Str) :=
  match r with
  | .error _ => none
  | .ok v => some v

/-! ### Lemmas about the NUL-record parsing loop -/

theorem parseRecords_rc (c : Char) (cs old new : Str) (rest : List Str)
    (h : (c == 'R' || c == 'C') = true) :
    parseRecords ((c :: cs) :: old :: new :: rest) =
      ⟨[c], new⟩ :: parseRecords rest := by
  simp [parseRecords, h]

theorem parseRecords_ord (c : Char) (cs path : Str) (rest : List Str)
    (h : (c == 'R' || c == 'C') = false) :
    parseRecords ((c :: cs) :: path :: rest) =
      ⟨[c], path⟩ :: parseRecords rest := by
  rw [parseRecords.eq_def]
  simp [h]

theorem parseRecords_tail_incomplete (tail : List Str)
    (h : isIncompleteTail tail = true) : parseRecords tail = [] := by
  match tail with
  | [] => simp [isIncompleteTail] at h
  | [s] =>
    match s with
    | [] => simp [isIncompleteTail] at h
    | c :: cs =>
      rw [parseRecords.eq_def]
      by_cases hc : (c == 'R' || c == 'C') = true <;> simp [hc]
  | [s, o] =>
    match s with
    | [] => simp [isIncompleteTail] at h
    | c :: cs =>
      have hc : (c == 'R' || c == 'C') = true := by
        simpa [isIncompleteTail] using h
      rw [parseRecords.eq_def]
      simp [hc]
  | _ :: _ :: _ :: _ => simp [isIncompleteTail] at h

theorem parseRecords_complete_append (recs : List (List Str)) :
    ∀ (tail : List Str), (∀ r ∈ recs, isCompleteRecord r = true) →
      isIncompleteTail tail = true →
      parseRecords (recs.flatten ++ tail) = parseRecords recs.flatten := by
  induction recs with
  | nil =>
    intro tail _ ht
    simpa [parseRecords] using parseRecords_tail_incomplete tail ht
  | cons r recs ih =>
    intro tail hall ht
    have hr : isCompleteRecord r = true := hall r (by simp)
    have hrest : ∀ q ∈ recs, isCompleteRecord q = true :=
      fun q hq => hall q (by simp [hq])
    match r with
    | [] => simp [isCompleteRecord] at hr
    | [s] =>
      have hs : s = [] := by
        simpa [isCompleteRecord, List.isEmpty_iff] using hr
      subst hs
      simpa [parseRecords] using ih tail hrest ht
    | [s, p] =>
      match s with
      | [] => simp [isCompleteRecord] at hr
      | c :: cs =>
        have hc : (c == 'R' || c == 'C') = false := by
          simpa [isCompleteRecord] using hr
        simp only [List.flatten_cons, List.cons_append, List.nil_append,
          List.append_assoc]
        rw [parseRecords_ord c cs p _ hc, parseRecords_ord c cs p _ hc,
          ih tail hrest ht]
    | [s, o, n] =>
      match s with
      | [] => simp [isCompleteRecord] at hr
      | c :: cs =>
        have hc : (c == 'R' || c == 'C') = true := by
          simpa [isCompleteRecord] using hr
        simp only [List.flatten_cons, List.cons_append, List.nil_append,
          List.append_assoc]
        rw [parseRecords_rc c cs o n _ hc, parseRecords_rc c cs o n _ hc,
          ih tail hrest ht]
    | _ :: _ :: _ :: _ :: _ => simp [isCompleteRecord] at hr

theorem parseRecords_path_mem :
    ∀ (n : Nat) (parts : List Str), parts.length ≤ n →
      ∀ cf ∈ parseRecords parts, cf.path ∈ parts := by
  intro n
  induction n with
  | zero =>
    intro parts hlen cf hcf
    have : parts = [] := List.length_eq_zero.mp (Nat.le_zero.mp hlen)
    subst this
    simp [parseRecords] at hcf
  | succ n ih =>
    intro parts hlen cf hcf
    match parts with
    | [] => simp [parseRecords] at hcf
    | [] :: rest =>
      have := ih rest (by simpa using Nat.le_of_succ_le_succ hlen) cf
        (by simpa [parseRecords] using hcf)
      exact List.mem_cons_of_mem _ this
    | (c :: cs) :: rest =>
      by_cases hc : (c == 'R' || c == 'C') = true
      · match rest with
        | [] => rw [parseRecords.eq_def] at hcf; simp [hc] at hcf
        | [o] => rw [parseRecords.eq_def] at hcf; simp [hc] at hcf
        | o :: p :: rest2 =>
          rw [parseRecords_rc c cs o p rest2 hc] at hcf
          rcases List.mem_cons.mp hcf with h | h
          · subst h; simp
          · have hp := ih rest2 (by simp at hlen ⊢; omega) cf h
            simp [List.mem_cons]
            tauto
      · rw [Bool.not_eq_true] at hc
        match rest with
        | [] => rw [parseRecords.eq_def] at hcf; simp [hc] at hcf
        | p :: rest2 =>
          rw [parseRecords_ord c cs p rest2 hc] at hcf
          rcases List.mem_cons.mp hcf with h | h
          · subst h; simp
          · have hp := ih rest2 (by simp at hlen ⊢; omega) cf h
            simp [List.mem_cons]
            tauto

/-- C9: the change-list parser consumes exactly three fields (status, old
path, new path) for a rename/copy record — keeping the new path — and
exactly two fields (status, path) for an ordinary record, re-synchronizing
so the remaining fields are parsed as the following records. -/
theorem C9_record_resync (c : Char) (cs old new path : Str) (rest : List Str) :
    ((c = 'R' ∨ c = 'C') →
      parseRecords ((c :: cs) :: old :: new :: rest) =
        ⟨[c], new⟩ :: parseRecords rest) ∧
    (¬(c = 'R' ∨ c = 'C') →
      parseRecords ((c :: cs) :: path :: rest) =
        ⟨[c], path⟩ :: parseRecords rest) := by
  constructor
  · intro h
    exact parseRecords_rc c cs old new rest (by simpa using h)
  · intro h
    push_neg at h
    exact parseRecords_ord c cs path rest
      (by simp [beq_iff_eq]; exact h)

theorem C9_record_resync_witness :
    parseRecords ["R100".toList, "old.txt".toList, "new.txt".toList] =
      [⟨"R".toList, "new.txt".toList⟩] ∧
    parseRecords ["M".toList, "f.txt".toList] =
      [⟨"M".toList, "f.txt".toList⟩] :=
  ⟨(C9_record_resync 'R' "100".toList "old.txt".toList "new.txt".toList
      [] []).1 (Or.inl rfl),
   (C9_record_resync 'M' [] "".toList "".toList "f.txt".toList []).2
      (by decide)⟩

/-- C10: a record stream that ends in a truncated record (a status with no
path, or a rename/copy status with fewer than two paths) yields exactly the
ChangedFiles of the preceding complete records, and every path the parser
ever produces is one of the input fields — the incomplete tail is silently
discarded and no ChangedFile with a missing path is fabricated. -/
theorem C10_truncated_tail :
    (∀ (recs : List (List Str)) (tail : List Str),
      (∀ r ∈ recs, isCompleteRecord r = true) →
      isIncompleteTail tail = true →
      parseRecords (recs.flatten ++ tail) = parseRecords recs.flatten) ∧
    (∀ (parts : List Str), ∀ cf ∈ parseRecords parts, cf.path ∈ parts) :=
  ⟨parseRecords_complete_append,
   fun parts => parseRecords_path_mem parts.length parts (Nat.le_refl _)⟩

theorem C10_truncated_tail_witness :
    parseRecords ([["M".toList, "a.txt".toList]].flatten ++ ["R86".toList]) =
      parseRecords [["M".toList, "a.txt".toList]].flatten :=
  C10_truncated_tail.1 [["M".toList, "a.txt".toList]] ["R86".toList]
    (by decide) (by decide)

/-- C1 fails on the code: a rename record is normalized to the new path but
keeps status `R` (the first letter of the raw status), not `A`, and the
action classifier therefore does not treat it like an added file. -/
theorem C1_rename_status_cex :
    parseRecords ["R100".toList, "old.txt".toList, "new.txt".toList] =
      [⟨"R".toList, "new.txt".toList⟩] ∧
    "R".toList ≠ "A".toList ∧
    _infer_action ["R".toList] = "更新".toList ∧
    _infer_action ["A".toList] = "新增".toList ∧
    "更新".toList ≠ "新增".toList := by
  decide

/-- C1 amended: a rename/copy record is normalized to a single ChangedFile
whose path is the new path and whose status is the first letter of the raw
status (`R` or `C`) — not `Added` — so the classifiers treat it like a
non-added file: `_infer_action` reports the update action for it and
`_infer_object` scores it with weight 1 rather than the added-file weight 3. -/
theorem C1_rename_kept_status (c : Char) (cs old new : Str) (rest : List Str)
    (h : c = 'R' ∨ c = 'C') :
    parseRecords ((c :: cs) :: old :: new :: rest) =
      ⟨[c], new⟩ :: parseRecords rest ∧
    [c] ≠ "A".toList ∧
    _infer_action [[c]] = "更新".toList ∧
    scoreOne [("auth".toList, [c])] ("auth".toList) ("认证".toList) [] =
      [("认证".toList, 1)] := by
  rcases h with rfl | rfl <;>
    exact ⟨parseRecords_rc _ cs old new rest (by decide),
      by decide, by decide, by decide⟩

theorem C1_rename_kept_status_witness :
    (parseRecords ["R100".toList, "old.txt".toList, "new.txt".toList] =
      [⟨"R".toList, "new.txt".toList⟩] ∧
    "R".toList ≠ "A".toList ∧
    _infer_action ["R".toList] = "更新".toList ∧
    scoreOne [("auth".toList, "R".toList)] ("auth".toList) ("认证".toList) [] =
      [("认证".toList, 1)]) :=
  C1_rename_kept_status 'R' "100".toList "old.txt".toList "new.txt".toList []
    (Or.inl rfl)

/-! ### Scenario B, exit codes, empty change set, subject cap, hint override -/

/-- C2 fails on the code: for the single added file
`mobile-app/auth/login.tsx`, `login` and `auth` both accumulate score 3, the
`login` keyword precedes `auth` in the table, and the first maximum wins, so
`_infer_object` returns the login label `登录`, not the authentication label
`认证`. -/
theorem C2_scenario_b_cex :
    _infer_object [⟨"A".toList, "mobile-app/auth/login.tsx".toList⟩] =
      some ("登录".toList) ∧
    "登录".toList ≠ "认证".toList := by
  decide

/-- C2 amended: for the ChangeSet `[(Added, "mobile-app/auth/login.tsx")]`
with no hint, `_infer_type` returns `feat`, `_infer_object` returns the login
label `登录` (login and authentication tie at score 3 and the earlier
keyword wins), the area label is the display name mapped for `mobile-app`,
and the rendered subject ends in the feature-suffix phrase `功能`. -/
theorem C2_scenario_b :
    _infer_type ["mobile-app/auth/login.tsx".toList] none = "feat".toList ∧
    _infer_object [⟨"A".toList, "mobile-app/auth/login.tsx".toList⟩] =
      some ("登录".toList) ∧
    _dominant_area ["mobile-app/auth/login.tsx".toList] = "移动端".toList ∧
    (resOk (build_message [⟨"A".toList, "mobile-app/auth/login.tsx".toList⟩]
        [] true none [])).map Prod.fst = some ("feat: 新增登录功能".toList) ∧
    ("功能".toList).isSuffixOf ("feat: 新增登录功能".toList) = true := by
  decide

/-- C3 fails on the code: outside a repository, `_get_repo_root` calls
`sys.exit(2)`, so the process exits with code 2 — the invalid-arguments
code — not 3. -/
theorem C3_not_a_repo_cex :
    mainRun true false none false [] [] [] = 2 ∧ (2 : Nat) ≠ 3 := by
  decide

/-- C3 amended: when the invocation location is not inside a
version-controlled directory, the program exits with code 2 — the same code
as an invalid argument combination — while exit code 3 is reserved for
failures raised while building the message. -/
theorem C3_not_a_repo_exit2 (cached worktree : Bool) (hint : Option Str)
    (tracked untracked : List ChangedFile) (stat : Str) :
    mainRun cached worktree hint false tracked untracked stat = 2 := by
  by_cases h : (cached && worktree) = true <;> simp [mainRun, h]

/-- C4: an empty ChangeSet makes `build_message` raise the no-changes error
(no subject/body is produced) and makes the program exit with code 3. -/
theorem C4_empty_changeset (cached : Bool) (hint : Option Str) (stat : Str)
    (worktree : Bool) :
    resErr (build_message [] [] cached hint stat) =
      some ("no changes to summarize".toList) ∧
    resOk (build_message [] [] cached hint stat) = none ∧
    mainRun false worktree hint true [] [] stat = 3 := by
  refine ⟨?_, ?_, ?_⟩
  · cases cached <;> rfl
  · cases cached <;> rfl
  · cases worktree <;> rfl

/-- C5: for every commit type and summary — however the summary was obtained
from classifier output or from an adversarially long hint — the rendered
subject never exceeds the 50 code-point cap: the renderer strips the two
filler words, re-checks, and finally hard-truncates instead of failing. -/
theorem C5_subject_cap (pre summary : Str) :
    (_compact_subject pre summary).length ≤ 50 := by
  unfold _compact_subject
  dsimp only
  split
  · assumption
  · split
    · assumption
    · exact List.length_take_le 50 _

theorem strContains_nil_iff (k : Str) : strContains [] k = k.isEmpty := by
  cases k <;> simp [strContains, List.tails, List.isPrefixOf]

/-- C6: whenever the hint contains one of the fixed defect keywords,
`_infer_type` returns `fix` for every path list — the hint check is step 1
and short-circuits the documentation-only rule (and all later rules). -/
theorem C6_hint_defect_overrides (paths : List Str) (h k : Str)
    (hk : k ∈ defectKeywords) (hc : strContains h k = true) :
    _infer_type paths (some h) = "fix".toList := by
  have hkne : k ≠ [] := by
    simp only [defectKeywords, List.mem_cons, List.not_mem_nil, or_false] at hk
    rcases hk with rfl | rfl | rfl | rfl | rfl <;> decide
  have hne : h.isEmpty = false := by
    cases h with
    | nil =>
      rw [strContains_nil_iff] at hc
      exact absurd (List.isEmpty_iff.mp hc) hkne
    | cons a t => rfl
  have hhit : hintHasDefect (some h) = true := by
    simp only [hintHasDefect, hne, Bool.not_false, Bool.true_and]
    exact List.any_eq_true.mpr ⟨k, hk, hc⟩
  simp [_infer_type, hhit]

theorem C6_hint_defect_overrides_witness :
    _is_docs_only ["README.md".toList] = true ∧
    _infer_type ["README.md".toList] (some ("修复登录错误".toList)) =
      "fix".toList :=
  ⟨by decide,
   C6_hint_defect_overrides ["README.md".toList] ("修复登录错误".toList)
     ("修复".toList) (by decide) (by decide)⟩

/-! ### The dominant-area classifier agrees with the tally description of the spec -/

theorem strContains_mem (p : Str) (c : Char) :
    strContains p [c] = true ↔ c ∈ p := by
  induction p with
  | nil => simp [strContains, List.tails, List.isPrefixOf]
  | cons a t ih =>
    have hc : strContains (a :: t) [c] =
        ([c].isPrefixOf (a :: t) || strContains t [c]) := rfl
    have h2 : [c].isPrefixOf (a :: t) = (c == a) := by
      rw [List.isPrefixOf_cons₂, List.isPrefixOf_nil_left, Bool.and_true]
    rw [hc, h2]
    simp [ih]

theorem topSegment_eq_takeWhile (p : Str) :
    topSegment p = p.takeWhile (fun c => c != '/') := by
  unfold topSegment
  split
  · rfl
  · next h =>
    have hmem : ('/' : Char) ∉ p := fun hm => h ((strContains_mem p '/').mpr hm)
    exact (List.takeWhile_eq_self_iff.mpr
      (fun a ha => by simp [bne_iff_ne]; rintro rfl; exact hmem ha)).symm

theorem mem_dedupFirst (a : Str) (l : List Str) :
    a ∈ dedupFirst l ↔ a ∈ l := by
  induction l with
  | nil => simp [dedupFirst]
  | cons s t ih =>
    simp only [dedupFirst, List.mem_cons, List.mem_filter, bne_iff_ne, ih]
    by_cases h : a = s <;> simp [h]

theorem nodup_dedupFirst (l : List Str) : (dedupFirst l).Nodup := by
  induction l with
  | nil => simp [dedupFirst]
  | cons s t ih =>
    simp only [dedupFirst, List.nodup_cons]
    refine ⟨fun hm => ?_, ih.filter _⟩
    simp [List.mem_filter] at hm

theorem dedupFirst_concat_not_mem (l : List Str) (x : Str) (h : x ∉ l) :
    dedupFirst (l ++ [x]) = dedupFirst l ++ [x] := by
  induction l with
  | nil => simp [dedupFirst]
  | cons s t ih =>
    have hxs : x ≠ s := fun he => h (by simp [he])
    have hxt : x ∉ t := fun he => h (by simp [he])
    simp only [List.cons_append, dedupFirst, List.append_eq]
    rw [ih hxt, List.filter_append]
    simp [hxs]

theorem dedupFirst_concat_mem (l : List Str) (x : Str) (h : x ∈ l) :
    dedupFirst (l ++ [x]) = dedupFirst l := by
  induction l with
  | nil => simp at h
  | cons s t ih =>
    by_cases hxt : x ∈ t
    · simp only [List.cons_append, dedupFirst, List.append_eq]
      rw [ih hxt]
    · have hxs : x = s := by
        rcases List.mem_cons.mp h with he | he
        · exact he
        · exact absurd he hxt
      subst hxs
      simp only [List.cons_append, dedupFirst, List.append_eq]
      rw [dedupFirst_concat_not_mem t x hxt, List.filter_append]
      simp

theorem bump_eq_append (cs : List (Str × Nat)) (k : Str)
    (h : ∀ e ∈ cs, e.1 ≠ k) : bump cs k = cs ++ [(k, 1)] := by
  induction cs with
  | nil => rfl
  | cons e t ih =>
    obtain ⟨k', n⟩ := e
    have hk : k' ≠ k := h (k', n) (by simp)
    simp only [bump, if_neg hk, List.cons_append]
    rw [ih (fun e he => h e (by simp [he]))]

theorem bump_map_mem (d : List Str) (f : Str → Nat) (x : Str)
    (hd : d.Nodup) (hx : x ∈ d) :
    bump (d.map (fun s => (s, f s))) x =
      d.map (fun s => (s, f s + if s = x then 1 else 0)) := by
  induction d with
  | nil => simp at hx
  | cons s t ih =>
    rcases List.nodup_cons.mp hd with ⟨hst, ht⟩
    by_cases hsx : s = x
    · subst hsx
      simp only [List.map_cons, bump, if_pos rfl, if_true]
      have : ∀ s' ∈ t, (s', f s') = (s', f s' + if s' = s then 1 else 0) := by
        intro s' hs'
        have : s' ≠ s := fun he => hst (he ▸ hs')
        simp [this]
      simp [List.map_congr_left this]
    · have hxt : x ∈ t := by
        rcases List.mem_cons.mp hx with he | he
        · exact absurd he.symm hsx
        · exact he
      simp only [List.map_cons, bump, if_neg hsx, ih ht hxt]
      simp [hsx]

theorem count_concat_self (l : List Str) (x : Str) :
    (l ++ [x]).count x = l.count x + 1 := by
  simp [List.count_append]

theorem count_concat_ne (l : List Str) (x s : Str) (h : s ≠ x) :
    (l ++ [x]).count s = l.count s := by
  simp [List.count_append, List.count_singleton', h]

theorem specTally_concat (l : List Str) (x : Str) :
    specTally (l ++ [x]) = bump (specTally l) x := by
  by_cases hx : x ∈ l
  · rw [specTally, dedupFirst_concat_mem l x hx, specTally,
      bump_map_mem (dedupFirst l) (fun s => l.count s) x
        (nodup_dedupFirst l) ((mem_dedupFirst x l).mpr hx)]
    refine List.map_congr_left (fun s _ => ?_)
    by_cases hsx : s = x
    · subst hsx; simp [count_concat_self]
    · simp [count_concat_ne l x s hsx, hsx]
  · rw [specTally, dedupFirst_concat_not_mem l x hx, specTally,
      bump_eq_append _ x (fun e he => ?_)]
    · rw [List.map_append]
      have h1 : (dedupFirst l).map (fun s => (s, (l ++ [x]).count s)) =
          (dedupFirst l).map (fun s => (s, l.count s)) := by
        refine List.map_congr_left (fun s hs => ?_)
        have : s ≠ x := fun he =>
          hx (he ▸ (mem_dedupFirst s l).mp hs)
        rw [count_concat_ne l x s this]
      have h2 : [x].map (fun s => (s, (l ++ [x]).count s)) = [(x, 1)] := by
        have : l.count x = 0 := List.count_eq_zero.mpr hx
        simp [count_concat_self, this]
      rw [h1, h2]
    · rcases List.mem_map.mp he with ⟨s, hs, rfl⟩
      exact fun hek => hx (hek ▸ (mem_dedupFirst s l).mp hs)

theorem foldl_bump_eq_specTally (segs : List Str) :
    segs.foldl bump [] = specTally segs := by
  induction segs using List.reverseRecOn with
  | nil => rfl
  | append_singleton l x ih =>
    rw [List.foldl_append, List.foldl_cons, List.foldl_nil, ih,
      specTally_concat]

/-- C7: `_dominant_area` computes exactly what the spec describes — for each
path the top-level segment (the substring before the first slash, or the
whole path), occurrence counts tallied per segment in a single stable pass,
the plurality segment with the first maximum winning, unknown segments and
empty input mapped to the generic fallback label. -/
theorem C7_dominant_area :
    (∀ paths, _dominant_area paths = specInferArea paths) ∧
    _dominant_area [] = "项目".toList := by
  refine ⟨fun paths => ?_, rfl⟩
  unfold _dominant_area specInferArea
  have h1 : paths.foldl (fun cs p => bump cs (topSegment p)) [] =
      (paths.map topSegment).foldl bump [] := by
    rw [List.foldl_map]
  have h2 : paths.map topSegment =
      paths.map (fun p => p.takeWhile (fun c => c != '/')) :=
    List.map_congr_left (fun p _ => topSegment_eq_takeWhile p)
  rw [h1, h2, foldl_bump_eq_specTally]

/-! ### Scenario C: the capped file listing of the body -/

theorem intercalate_cons₂ (sep x y : Str) (t : List Str) :
    List.intercalate sep (x :: y :: t) =
      x ++ sep ++ List.intercalate sep (y :: t) := by
  simp [List.intercalate, List.intersperse, List.append_assoc]

theorem intercalate_singleton (sep x : Str) :
    List.intercalate sep [x] = x := by
  simp [List.intercalate, List.intersperse]

theorem intercalate_head (sep x : Str) (ls : List Str) (c : Char)
    (h : x.head? = some c) :
    (List.intercalate sep (x :: ls)).head? = some c := by
  cases ls with
  | nil => rw [intercalate_singleton]; exact h
  | cons y t =>
    rw [intercalate_cons₂]
    cases x with
    | nil => simp at h
    | cons a s => simpa using h

theorem intercalate_getLast (sep : Str) (ls : List Str) (y : Str) (d : Char)
    (h : y.getLast? = some d) :
    (List.intercalate sep (ls ++ [y])).getLast? = some d := by
  induction ls with
  | nil => rw [List.nil_append, intercalate_singleton]; exact h
  | cons x t ih =>
    obtain ⟨z, ts, hz⟩ : ∃ z ts, t ++ [y] = z :: ts := by
      cases t with
      | nil => exact ⟨y, [], rfl⟩
      | cons a b => exact ⟨a, b ++ [y], rfl⟩
    rw [List.cons_append, hz, intercalate_cons₂ sep x z ts, ← hz]
    simp [List.getLast?_append, ih]

theorem intercalate_getLast_middle (sep : Str) (A : List Str) (x : Str)
    (B : List Str) (y : Str) (d : Char) (h : y.getLast? = some d) :
    (List.intercalate sep (A ++ x :: (B ++ [y]))).getLast? = some d := by
  have heq : A ++ x :: (B ++ [y]) = (A ++ x :: B) ++ [y] := by simp
  rw [heq]
  exact intercalate_getLast sep _ y d h

theorem intercalate_head_append (sep : Str) (A : List Str) (x : Str)
    (ls : List Str) (c : Char)
    (hA : ∀ a ∈ A, a.head? = some c) (hx : x.head? = some c) :
    (List.intercalate sep (A ++ x :: ls)).head? = some c := by
  cases A with
  | nil => exact intercalate_head sep x ls c hx
  | cons a t =>
    rw [List.cons_append]
    exact intercalate_head sep a _ c (hA a (by simp))

theorem dropWhile_eq_self_of_head (p : Char → Bool) (s : Str) (c : Char)
    (hc : s.head? = some c) (hp : p c = false) : s.dropWhile p = s := by
  cases s with
  | nil => simp at hc
  | cons a t =>
    obtain rfl : a = c := by simpa using hc
    simp [List.dropWhile_cons, hp]

theorem trimStr_eq_self (s : Str) (c d : Char)
    (hc : s.head? = some c) (hwc : isWS c = false)
    (hd : s.getLast? = some d) (hwd : isWS d = false) : trimStr s = s := by
  unfold trimStr
  rw [dropWhile_eq_self_of_head isWS s c hc hwc]
  rw [dropWhile_eq_self_of_head isWS s.reverse d
    (by rw [List.head?_reverse]; exact hd) hwd]
  exact List.reverse_reverse s

/-- C8: for any ChangeSet of 15 modified files under `backend/` with no
hint, the body is the newline join of (an optional statistics line,) exactly
the first 12 `"- {status} {path}"` lines in ChangeSet order, and exactly one
trailing line announcing the 3 remaining files — with the surrounding strip
being the identity. -/
theorem C8_body_file_cap (changed : List ChangedFile) (stat : Str)
    (hlen : changed.length = 15)
    (hall : ∀ cf ∈ changed, cf.status = "M".toList ∧
      ("backend/".toList).isPrefixOf cf.path) :
    ((resOk (build_message changed [] true none stat)).map Prod.snd =
      some (List.intercalate ("\n".toList)
        ((if stat.isEmpty then [] else ["- 统计：".toList ++ stat]) ++
         (changed.take 12).map
           (fun c => "- ".toList ++ c.status ++ " ".toList ++ c.path) ++
         ["- ... 以及另外 3 个文件".toList]))) ∧
    (changed.take 12).length = 12 := by
  obtain ⟨c1, ctail, rfl⟩ : ∃ c1 ctail, changed = c1 :: ctail := by
    cases changed with
    | nil => simp at hlen
    | cons a b => exact ⟨a, b, rfl⟩
  constructor
  · simp only [build_message, resOk, if_true, List.map_cons, List.isEmpty_cons,
      Bool.false_eq_true, if_false, Option.map_some', hlen,
      show natToStr 3 = ['3'] from by decide]
    norm_num
    refine trimStr_eq_self _ '-' '件' ?_ (by decide) ?_ (by decide)
    · refine intercalate_head_append _ _ _ _ '-' ?_ rfl
      intro a ha
      split at ha
      · simp at ha
      · simp only [List.mem_singleton] at ha
        subst ha
        rfl
    · exact intercalate_getLast_middle _ _ _ _ _ '件' (by decide)
  · simp only [List.length_take, List.length_cons] at hlen ⊢
    omega

theorem C8_body_file_cap_witness :
    ((resOk (build_message backendSample [] true none [])).map Prod.snd =
      some (List.intercalate ("\n".toList)
        ((if ([] : Str).isEmpty then [] else ["- 统计：".toList ++ []]) ++
         (backendSample.take 12).map
           (fun c => "- ".toList ++ c.status ++ " ".toList ++ c.path) ++
         ["- ... 以及另外 3 个文件".toList]))) ∧
    (backendSample.take 12).length = 12 :=
  C8_body_file_cap backendSample [] (by decide) (by decide)

end SuggestCommit
